import Mathlib

/-!
Verification of the LMStudio web chat client (`src/src/main.ts` and the
shared table renderer module) against its natural-language specification.

The development shallowly embeds the two core components:

* the session store: the module-level state `sessions : ChatSession[]`,
  `currentSessionId : string | null` of `main.ts` together with the
  operations `loadSessions`, `createNewSession`, `deleteSession`,
  `searchChat`, the recency sort used by `renderSidebar`, and the
  message-appending part of `handleSend`;
* the content segmenter: the line-oriented loop of
  `renderMessageContentWithTables`, reified as a pure function from the raw
  text to a list of `Prose`/`Table` segments (the DOM nodes the real code
  builds carry exactly this data).

JavaScript numbers used as `Date.now()` timestamps are modelled as `Nat`;
`localStorage` contents are passed in as an `Option` value (`none` models
both a missing and an unparsable blob, which the code treats alike).
Strings are modelled by Lean `String`/`List Char`; the JavaScript `\s`
character class and `String.prototype.trim` are modelled by
`Char.isWhitespace`, which agrees on the ASCII whitespace relevant here.
-/

/-- Message role, from the `Role` union type in `main.ts`. -/
inductive Role where
  | user
  | assistant
deriving DecidableEq, Repr

/-- One chat message, from `interface Message` in `main.ts`. -/
structure Message where
  role : Role
  content : String
  createdAt : Nat
deriving DecidableEq, Repr

/-- One conversation, from `interface ChatSession` in `main.ts`. -/
structure ChatSession where
  id : String
  title : String
  messages : List Message
  createdAt : Nat
  updatedAt : Nat
deriving DecidableEq, Repr

/-- The store state: the module-level variables `sessions` and
`currentSessionId` of `main.ts`. -/
structure Store where
  sessions : List ChatSession
  currentSessionId : Option String
deriving DecidableEq, Repr

/-- The default title used throughout `main.ts` (the literal
`"新しいチャット"`). -/
def defaultTitle : String := "新しいチャット"

/-- A fresh empty session, from `createNewSession` in `main.ts`
(`id` and `now` are environment inputs: `Date.now()` and the random
suffix). -/
def mkSession (id title : String) (now : Nat) : ChatSession :=
  { id := id, title := title, messages := [], createdAt := now, updatedAt := now }

/-- The comparator `(a, b) => b.updatedAt - a.updatedAt` used by
`sessions.sort` in `loadSessions`, `deleteSession` and `renderSidebar`:
`a` may come before `b` iff `b.updatedAt ≤ a.updatedAt`. -/
def recencyLe (a b : ChatSession) : Prop := b.updatedAt ≤ a.updatedAt

instance : DecidableRel recencyLe := fun a b =>
  inferInstanceAs (Decidable (b.updatedAt ≤ a.updatedAt))

instance : IsTotal ChatSession recencyLe :=
  ⟨fun a b => (Nat.le_total b.updatedAt a.updatedAt).elim Or.inl Or.inr⟩

instance : IsTrans ChatSession recencyLe :=
  ⟨fun _ _ _ hab hbc => Nat.le_trans hbc hab⟩

/-- JavaScript `Array.prototype.sort` with the comparator above.  The
ECMAScript specification requires the sort to be stable, and for a total
consistent comparator the stable sorted permutation is unique, so any
stable sort is a faithful model; we use insertion sort. -/
def sortByRecency (l : List ChatSession) : List ChatSession :=
  List.insertionSort recencyLe l

/-- The `sessions.slice().sort((a, b) => b.updatedAt - a.updatedAt)`
computation of `renderSidebar` (the spec's `listByRecency`). -/
def listByRecency (st : Store) : List ChatSession :=
  sortByRecency st.sessions

/-- The store mutation of `createNewSession` in `main.ts`: `unshift` the
fresh session; `currentSessionId` is not touched by the function itself. -/
def createNewSession (st : Store) (freshId title : String) (now : Nat) : Store :=
  { st with sessions := mkSession freshId title now :: st.sessions }

/-- The `loadSessions` function of `main.ts`.  `persisted` is the parsed
content of `localStorage`; `none` models both an absent key and a blob on
which `JSON.parse` throws (both leave `sessions = []`).  An empty
collection triggers `createNewSession("新しいチャット")` (with environment
inputs `freshId`, `now`); otherwise the array is sorted by recency in
place and the first (most recently updated) session is selected. -/
def loadSessions (persisted : Option (List ChatSession)) (freshId : String)
    (now : Nat) : Store :=
  match persisted.getD [] with
  | [] =>
    { sessions := [mkSession freshId defaultTitle now],
      currentSessionId := some freshId }
  | s :: rest =>
    let sorted := sortByRecency (s :: rest)
    { sessions := sorted, currentSessionId := sorted.head?.map (fun x => x.id) }

/-- Removal of the first session with the given id: the
`sessions.splice(sessions.findIndex(s => s.id === id), 1)` step of
`deleteSession`. -/
def removeFirstById (delId : String) : List ChatSession → List ChatSession
  | [] => []
  | s :: rest => if s.id = delId then rest else s :: removeFirstById delId rest

/-- The `deleteSession` function of `main.ts`.  Unknown id: no-op
(`findIndex` returns `-1`).  If the collection becomes empty a fresh
session is created and selected; if the deleted session was current, the
remainder is sorted by recency in place and its head selected. -/
def deleteSession (st : Store) (delId freshId : String) (now : Nat) : Store :=
  if st.sessions.any (fun s => s.id == delId) then
    match removeFirstById delId st.sessions with
    | [] =>
      { sessions := [mkSession freshId defaultTitle now],
        currentSessionId := some freshId }
    | r :: rs =>
      if st.currentSessionId = some delId then
        let sorted := sortByRecency (r :: rs)
        { sessions := sorted, currentSessionId := sorted.head?.map (fun x => x.id) }
      else
        { st with sessions := r :: rs }
  else st

/-- One store operation for the invariant claims: the three operations
named by the spec (`load`, `create`, `delete`), each taking its
environment inputs (fresh id, timestamp, persisted blob). -/
inductive StoreOp where
  | create (freshId title : String) (now : Nat)
  | del (delId freshId : String) (now : Nat)
  | load (persisted : Option (List ChatSession)) (freshId : String) (now : Nat)

/-- Apply one `StoreOp`. -/
def applyOp (st : Store) : StoreOp → Store
  | .create f t n => createNewSession st f t n
  | .del d f n => deleteSession st d f n
  | .load p f n => loadSessions p f n

/-- Apply a sequence of store operations in order. -/
def applyOps (st : Store) (ops : List StoreOp) : Store :=
  ops.foldl applyOp st

/-- The store invariant of spec §3: the session set is non-empty and
`currentSessionId` references a member. -/
def storeInv (st : Store) : Prop :=
  st.sessions ≠ [] ∧ ∃ s ∈ st.sessions, st.currentSessionId = some s.id

/-! ### Settings (`loadSettings`, claim C10) -/

/-- The `Settings` interface of `main.ts`.  `temperature` (a JS number)
is modelled as a rational. -/
structure Settings where
  apiBaseUrl : String
  modelId : String
  systemPrompt : String
  temperature : ℚ
  maxTokens : Option Nat
deriving DecidableEq, Repr

/-- The constant `DEFAULT_SETTINGS` of `main.ts`. -/
def DEFAULT_SETTINGS : Settings :=
  { apiBaseUrl := "http://localhost:1234/v1",
    modelId := "mistralai/ministral-3-3b",
    systemPrompt := "あなたは日本語で丁寧に回答するアシスタントです。",
    temperature := 7 / 10,
    maxTokens := none }

/-- A persisted settings blob: `JSON.parse(raw) as Partial<Settings>`.
Each field is optionally present; a present `maxTokens` can itself be the
JSON `null` (hence `Option (Option Nat)`). -/
structure PartialSettings where
  apiBaseUrl : Option String
  modelId : Option String
  systemPrompt : Option String
  temperature : Option ℚ
  maxTokens : Option (Option Nat)
deriving DecidableEq, Repr

/-- The `loadSettings` function of `main.ts`.  `persisted = none` models
both a missing key and a blob on which `JSON.parse` throws (both reset to
`DEFAULT_SETTINGS`); otherwise the spread `{...DEFAULT_SETTINGS, ...parsed}`
merges field-wise.  The two assignments after the `try` block then
unconditionally overwrite `temperature` and `maxTokens` with the
defaults. -/
def loadSettings (persisted : Option PartialSettings) : Settings :=
  let merged :=
    match persisted with
    | none => DEFAULT_SETTINGS
    | some p =>
      { apiBaseUrl := p.apiBaseUrl.getD DEFAULT_SETTINGS.apiBaseUrl,
        modelId := p.modelId.getD DEFAULT_SETTINGS.modelId,
        systemPrompt := p.systemPrompt.getD DEFAULT_SETTINGS.systemPrompt,
        temperature := p.temperature.getD DEFAULT_SETTINGS.temperature,
        maxTokens := p.maxTokens.getD DEFAULT_SETTINGS.maxTokens }
  { merged with
    temperature := DEFAULT_SETTINGS.temperature,
    maxTokens := DEFAULT_SETTINGS.maxTokens }

/-! ### Character-level text primitives

The segmenter and the title/search helpers in `main.ts` are string
processing; we model the text as `List Char` and define the JavaScript
primitives they use (`trim`, `split`, `replace`, `includes`,
`toLowerCase`) as executable recursive functions. -/

/-- Character lists, the working representation of JS strings. -/
abbrev Chars := List Char

/-- The JS `\s` class / `trim` whitespace, restricted to the ASCII
whitespace handled by `Char.isWhitespace`. -/
def ws (c : Char) : Bool := c.isWhitespace

/-- JavaScript `String.prototype.trim`: drop whitespace from both ends. -/
def trimChars (cs : Chars) : Chars :=
  ((cs.dropWhile ws).reverse.dropWhile ws).reverse

/-- A blank line: `line.trim() === ""` in `main.ts` and the renderer. -/
def isBlank (l : Chars) : Bool := (trimChars l).isEmpty

/-- JavaScript `replace(/\s+/g, " ")`: collapse every whitespace run to a
single space.  The Boolean argument records whether the previous character
was inside a whitespace run. -/
def collapseWsGo : Bool → Chars → Chars
  | _, [] => []
  | prevWs, c :: rest =>
    if ws c then
      if prevWs then collapseWsGo true rest
      else ' ' :: collapseWsGo true rest
    else c :: collapseWsGo false rest

/-- Collapse whitespace runs, starting outside a run. -/
def collapseWs (cs : Chars) : Chars := collapseWsGo false cs

/-- JavaScript `split(c)` on a single-character separator.  Always returns
at least one (possibly empty) piece, like `"".split(x) === [""]`. -/
def splitOnChar (sep : Char) : Chars → List Chars
  | [] => [[]]
  | c :: rest =>
    let r := splitOnChar sep rest
    if c = sep then [] :: r
    else
      match r with
      | [] => [[c]]
      | h :: t => (c :: h) :: t

/-- Join line lists with a separator string: the inverse direction of
`splitOnChar`, used to model `normalLines.join("\n")` and the rendered
plain text. -/
def joinSep (sep : Chars) : List Chars → Chars
  | [] => []
  | [x] => x
  | x :: y :: rest => x ++ sep ++ joinSep sep (y :: rest)

/-- The `raw.replace(/\r\n/g, "\n")` normalization at the top of
`renderMessageContentWithTables`. -/
def normalizeNewlines : Chars → Chars
  | [] => []
  | '\r' :: '\n' :: rest => '\n' :: normalizeNewlines rest
  | c :: rest => c :: normalizeNewlines rest

/-- JavaScript `String.prototype.toLowerCase`, character-wise (ASCII; the
search claims only exercise ASCII case folding). -/
def lowerChars (cs : Chars) : Chars := cs.map Char.toLower

/-- Does `cs` start with the pattern `pat`? -/
def startsWithChars : Chars → Chars → Bool
  | _, [] => true
  | [], _ :: _ => false
  | a :: ha, b :: hb => a = b && startsWithChars ha hb

/-- JavaScript `String.prototype.includes`: `pat` occurs as a contiguous
substring of `cs`. -/
def containsSub (pat : Chars) : Chars → Bool
  | [] => startsWithChars [] pat
  | c :: rest => startsWithChars (c :: rest) pat || containsSub pat rest

/-! ### Appending messages (`handleSend`, claims C3, C4, C8) -/

/-- Error taxonomy for `appendMessage` (spec §7).  The code's guard
`if (!session) return;` in `handleSend` silently abandons the operation;
the spec names that outcome `NotFound`, which we represent as an explicit
error value. -/
inductive AppendError where
  | notFound
deriving DecidableEq, Repr

/-- Title derivation from the first message, lines 617-620 of `main.ts`:
`const t = text.replace(/\s+/g, " ").slice(0, 30); session.title = t || "新しいチャット";`.
`content` is the already-trimmed text (the caller trims).  The fallback
fires exactly when the truncated collapse is the empty string. -/
def deriveTitle (content : String) : String :=
  let t := (collapseWs content.data).take 30
  if t.isEmpty then defaultTitle else String.mk t

/-- Update the first list element satisfying `p` (the in-place mutation of
the session object found by `find`). -/
def updateFirst (p : ChatSession → Bool) (f : ChatSession → ChatSession) :
    List ChatSession → List ChatSession
  | [] => []
  | s :: rest => if p s then f s :: rest else s :: updateFirst p f rest

/-- The message-appending core of `handleSend` (`main.ts` lines 607-629
and 644-650), generalized over the target session id (the code always
passes the current session's id).  Looks up the session; fails with
`NotFound` if absent; derives the title when this is the first message;
pushes the message and refreshes `updatedAt`. -/
def appendMessage (st : Store) (id : String) (role : Role) (content : String)
    (now : Nat) : Except AppendError Store :=
  match st.sessions.find? (fun s => s.id == id) with
  | none => .error .notFound
  | some _ =>
    .ok { st with
      sessions := updateFirst (fun s => s.id == id)
        (fun s =>
          { s with
            title := if s.messages.isEmpty then deriveTitle content else s.title,
            messages := s.messages ++ [{ role := role, content := content, createdAt := now }],
            updatedAt := now })
        st.sessions }

/-- Total version of `appendMessage`: on failure the store is returned
unchanged, matching the early `return` in `handleSend`. -/
def appendMessageOr (st : Store) (id : String) (role : Role) (content : String)
    (now : Nat) : Store :=
  match appendMessage st id role content now with
  | .ok st2 => st2
  | .error _ => st

/-- The `getCurrentSession` function of `main.ts`:
`sessions.find(s => s.id === currentSessionId)` (never a match when
`currentSessionId` is `null`). -/
def getCurrentSession (st : Store) : Option ChatSession :=
  match st.currentSessionId with
  | none => none
  | some cid => st.sessions.find? (fun s => s.id == cid)

/-- The user-message part of `handleSend` (`main.ts` lines 607-635): bail
out when there is no current session, trim the input, bail out when the
trimmed text is empty, otherwise append the trimmed text to the current
session. -/
def handleSendUser (st : Store) (input : String) (now : Nat) : Store :=
  match getCurrentSession st with
  | none => st
  | some s =>
    let text := String.mk (trimChars input.data)
    if text = "" then st
    else appendMessageOr st s.id .user text now

/-- Apply a sequence of appends (id, role, content, timestamp), each via
`appendMessageOr`. -/
def applyAppends (st : Store) : List (String × Role × String × Nat) → Store
  | [] => st
  | (id, r, c, n) :: rest => applyAppends (appendMessageOr st id r c n) rest

/-! ### Search (`searchChat`, claim C7) -/

/-- Does one session match the (already trimmed and lowercased, non-empty)
query?  From the filter callback in `searchChat`:
`(s.title && s.title.toLowerCase().includes(q)) || s.messages.some(m => m.content.toLowerCase().includes(q))`. -/
def sessionMatches (q : Chars) (s : ChatSession) : Bool :=
  (!s.title.isEmpty && containsSub q (lowerChars s.title.data)) ||
    s.messages.any (fun m => containsSub q (lowerChars m.content.data))

/-- The match list computed by `searchChat` in `main.ts`:
`const q = keyword.trim().toLowerCase(); if (!q) return;` (an empty or
whitespace-only keyword yields no results), then
`sessions.filter(...)` — note: filtered in the array's own order, the
function does not re-sort. -/
def searchMatches (st : Store) (keyword : String) : List ChatSession :=
  let q := lowerChars (trimChars keyword.data)
  if q.isEmpty then []
  else st.sessions.filter (sessionMatches q)

/-! ### Inline markdown stripping (`stripInlineMarkdown` in the renderer)

The renderer runs `s.replace(/\*\*(.+?)\*\*/g, "$1").replace(/`...`/g, "$1")`
(bold markers first, then inline code spans).  We model each global
regex replace by a left-to-right scan: at each position try to match; on
a match emit the captured inner text and continue after the match; on no
match emit one character and continue (regex `lastIndex` advances by one).
The bold inner `(.+?)` is lazy, non-empty, and `.` does not match a
newline; the code inner is one or more non-backtick characters. -/

/-- The backtick character (code-span delimiter). -/
def backtick : Char := Char.ofNat 96

/-- Match the lazy bold body: given the text after an opening star pair,
find the shortest non-empty newline-free inner text followed by a closing
star pair.  Returns the inner text and the remainder after the close. -/
def scanBoldInner : Chars → Option (Chars × Chars)
  | [] => none
  | c :: rest =>
    if c = '\n' then none
    else
      match rest with
      | '*' :: '*' :: rest2 => some ([c], rest2)
      | _ =>
        match scanBoldInner rest with
        | some (inn, r) => some (c :: inn, r)
        | none => none

/-- Match the code-span body: given the text after an opening backtick,
collect one or more non-backtick characters up to a closing backtick.
Returns the inner text and the remainder after the close. -/
def scanCodeInner : Chars → Option (Chars × Chars)
  | [] => none
  | c :: rest =>
    if c = backtick then none
    else
      match rest with
      | [] => none
      | d :: rest2 =>
        if d = backtick then some ([c], rest2)
        else
          match scanCodeInner rest with
          | some (inn, r) => some (c :: inn, r)
          | none => none

/-- Global replace of `/\*\*(.+?)\*\*/g` by the captured group. -/
def stripBold : Chars → Chars
  | [] => []
  | [c] => [c]
  | c :: d :: rest =>
    if c = '*' ∧ d = '*' then
      match h : scanBoldInner rest with
      | some (inn, r) => inn ++ stripBold r
      | none => c :: stripBold (d :: rest)
    else c :: stripBold (d :: rest)
termination_by cs => cs.length
decreasing_by
  · have hlen : ∀ cs inn r : Chars, scanBoldInner cs = some (inn, r) →
        r.length < cs.length := by
      intro cs
      induction cs with
      | nil => intro inn r hs; simp [scanBoldInner] at hs
      | cons c2 rest2 ih =>
        intro inn r hs
        simp only [scanBoldInner] at hs
        split at hs
        · exact absurd hs (by simp)
        · split at hs
          · rw [Option.some_inj] at hs
            cases hs
            simp only [List.length_cons]
            omega
          · split at hs
            · rw [Option.some_inj] at hs
              cases hs
              have hlt := ih _ _ (by assumption)
              simp only [List.length_cons] at hlt ⊢
              omega
            · exact absurd hs (by simp)
    have := hlen rest inn r h
    simp only [List.length_cons]
    omega
  · simp
  · simp

/-- Global replace of the inline code-span regex by the captured group. -/
def stripCode : Chars → Chars
  | [] => []
  | c :: rest =>
    if c = backtick then
      match h : scanCodeInner rest with
      | some (inn, r) => inn ++ stripCode r
      | none => c :: stripCode rest
    else c :: stripCode rest
termination_by cs => cs.length
decreasing_by
  · have hlen : ∀ cs inn r : Chars, scanCodeInner cs = some (inn, r) →
        r.length < cs.length := by
      intro cs
      induction cs with
      | nil => intro inn r hs; simp [scanCodeInner] at hs
      | cons c2 rest2 ih =>
        intro inn r hs
        simp only [scanCodeInner] at hs
        split at hs
        · exact absurd hs (by simp)
        · split at hs
          · exact absurd hs (by simp)
          · split at hs
            · rw [Option.some_inj] at hs
              cases hs
              simp only [List.length_cons]
              omega
            · split at hs
              · rw [Option.some_inj] at hs
                cases hs
                have hlt := ih _ _ (by assumption)
                simp only [List.length_cons] at hlt ⊢
                omega
              · exact absurd hs (by simp)
    have := hlen rest inn r h
    simp only [List.length_cons]
    omega
  · simp
  · simp

/-- The `stripInlineMarkdown` helper of the renderer: bold markers first,
then code spans. -/
def stripInlineMarkdown (cs : Chars) : Chars := stripCode (stripBold cs)

/-! ### Table detection and segmentation (`renderMessageContentWithTables`) -/

/-- The characters removed by the separator check's
`t.replace(/[|\s:\-]/g, "")`. -/
def isSepChar (c : Char) : Bool := c = '|' || ws c || c = ':' || c = '-'

/-- The `isTableSeparatorLine` helper of the renderer: the trimmed line
starts with a pipe, consists only of pipe/whitespace/colon/hyphen
characters, and contains at least one hyphen. -/
def isTableSeparatorLine (line : Chars) : Bool :=
  let t := trimChars line
  startsWithChars t ['|'] &&
    (t.filter (fun c => !isSepChar c)).isEmpty &&
    t.any (fun c => c = '-')

/-- The table-start condition of the renderer's main loop:
`line.trim().startsWith("|") && i + 1 < lines.length && isTableSeparatorLine(lines[i + 1])`. -/
def isTableStart (l : Chars) (rest : List Chars) : Bool :=
  startsWithChars (trimChars l) ['|'] &&
    match rest with
    | [] => false
    | nxt :: _ => isTableSeparatorLine nxt

/-- The `splitMarkdownRow` helper of the renderer: trim, drop one leading
and one trailing pipe if present, split on pipes, trim and strip each
cell. -/
def splitMarkdownRow (line : Chars) : List Chars :=
  let w0 := trimChars line
  let w1 := if startsWithChars w0 ['|'] then w0.tail else w0
  let w2 := if w1.getLast? = some '|' then w1.dropLast else w1
  (splitOnChar '|' w2).map (fun cell => stripInlineMarkdown (trimChars cell))

/-- One output segment of the segmenter: the data content of the `<p>`
paragraphs and `<table>` elements the renderer appends. -/
inductive Segment where
  | prose (text : String)
  | table (header : List String) (rows : List (List String))
deriving DecidableEq, Repr

/-- Is the segment a prose segment? -/
def Segment.isProse : Segment → Bool
  | .prose _ => true
  | .table _ _ => false

/-- The body-row loop of the renderer: consume rows while the trimmed line
starts with a pipe, is not a separator line, and is not blank; return the
parsed rows and the unconsumed remainder. -/
def tableRows : List Chars → List (List Chars) × List Chars
  | [] => ([], [])
  | l :: rest =>
    let t := trimChars l
    if !startsWithChars t ['|'] || isTableSeparatorLine l || t.isEmpty then
      ([], l :: rest)
    else
      let pr := tableRows rest
      (splitMarkdownRow l :: pr.1, pr.2)

/-- The prose-accumulation loop of the renderer (`normalLines`): keep
consuming lines while no table starts here; a blank line stops the run
once at least one line has been accumulated.  Returns the accumulated
lines (in order) and the unconsumed remainder. -/
def proseRun (acc : List Chars) : List Chars → List Chars × List Chars
  | [] => (acc.reverse, [])
  | l :: rest =>
    if isTableStart l rest then (acc.reverse, l :: rest)
    else if isBlank l && !acc.isEmpty then (acc.reverse, l :: rest)
    else proseRun (l :: acc) rest

/-- The blank-skipping loop after a flushed prose run:
`while (i < lines.length && lines[i].trim() === "") i++;`. -/
def dropBlanks (ls : List Chars) : List Chars := ls.dropWhile isBlank

/-- The main loop of `renderMessageContentWithTables`, as a pure function
from the split lines to the segment list.  On a table start the current
line is the header, the separator is discarded, and the body rows are
consumed; otherwise a prose run is accumulated (the first line is always
accumulated, since the loop guard just failed for it), flushed as a
paragraph after inline stripping of the joined lines, and any blank lines
after the run are skipped. -/
def segmentLines : List Chars → List Segment
  | [] => []
  | l :: rest =>
    if isTableStart l rest then
      let pr := tableRows rest.tail
      Segment.table ((splitMarkdownRow l).map String.mk)
          (pr.1.map (fun r => r.map String.mk)) ::
        segmentLines pr.2
    else
      let pr := proseRun [l] rest
      Segment.prose (String.mk (stripInlineMarkdown (joinSep ['\n'] pr.1))) ::
        segmentLines (dropBlanks pr.2)
termination_by ls => ls.length
decreasing_by
  · have hlen : ∀ ls : List Chars, (tableRows ls).2.length ≤ ls.length := by
      intro ls
      induction ls with
      | nil => simp [tableRows]
      | cons l2 rest2 ih =>
        simp only [tableRows]
        split
        · simp
        · simpa using Nat.le_succ_of_le ih
    exact Nat.lt_succ_of_le (Nat.le_trans (hlen _) (by rw [List.length_tail]; omega))
  · have hpr : ∀ (ls acc : List Chars), (proseRun acc ls).2.length ≤ ls.length := by
      intro ls
      induction ls with
      | nil => intro acc; simp [proseRun]
      | cons l2 rest2 ih =>
        intro acc
        simp only [proseRun]
        split
        · simp
        · split
          · simp
          · simpa using Nat.le_succ_of_le (ih (l2 :: acc))
    have hdb : ∀ ls : List Chars, (dropBlanks ls).length ≤ ls.length := by
      intro ls
      induction ls with
      | nil => simp [dropBlanks]
      | cons l2 rest2 ih =>
        simp only [dropBlanks, List.dropWhile]
        split
        · exact Nat.le_succ_of_le ih
        · simp
    exact Nat.lt_succ_of_le (Nat.le_trans (hdb _) (hpr _ _))

/-- Segment a raw character sequence: normalize line endings, split on
newlines, run the main loop. -/
def segmentChars (cs : Chars) : List Segment :=
  segmentLines (splitOnChar '\n' (normalizeNewlines cs))

/-- Segment a raw string (the renderer's entry point, minus the DOM). -/
def segmentText (s : String) : List Segment :=
  segmentChars s.data

/-- Modelled from the spec: the repository renders segments to DOM nodes
and has no plain-text rendering function, so the "rendered plain text" of
§8's round-trip property is modelled from the spec's words: each segment
becomes a block of plain text (a prose paragraph's text verbatim; a
table's header and body rows as lines whose cells are joined by single
spaces, the pipes not surviving rendering), and blocks are separated by
blank lines, as block-level DOM elements display. -/
def renderSegment : Segment → Chars
  | .prose t => t.data
  | .table header rows =>
    joinSep ['\n'] ((header :: rows).map (fun r => joinSep [' '] (r.map String.data)))

/-- Modelled from the spec: the rendered plain text of a segment list;
see `renderSegment`. -/
def renderedPlainText (segs : List Segment) : Chars :=
  joinSep ['\n', '\n'] (segs.map renderSegment)

/-- The spec's wording of the separator-line condition (§4.2 step 2),
written independently of the code for comparison with
`isTableSeparatorLine`: the trimmed line starts with a pipe, every
character of it is a pipe, whitespace, colon or hyphen (so removing those
leaves the empty string), and it contains at least one hyphen. -/
def SepLineSpec (l : Chars) : Prop :=
  (trimChars l).head? = some '|' ∧
  (∀ c ∈ trimChars l, c = '|' ∨ c.isWhitespace = true ∨ c = ':' ∨ c = '-') ∧
  '-' ∈ trimChars l

/-- The spec's wording of the table-start condition (§4.2 step 2), for
comparison with `isTableStart`: the current line, trimmed, begins with a
pipe, and a next line exists and is a separator line. -/
def TableStartSpec (l : Chars) (rest : List Chars) : Prop :=
  (trimChars l).head? = some '|' ∧ ∃ nxt tl, rest = nxt :: tl ∧ SepLineSpec nxt

/-!
Theorems.

General-purpose lemmas about the embedded functions come first, then one
theorem per claim (with a witness where the claim's theorem carries a
hypothesis, and a counterexample where the claim as stated fails).
-/

theorem startsWithChars_pipe_iff (cs : Chars) :
    startsWithChars cs ['|'] = true ↔ cs.head? = some '|' := by
  cases cs with
  | nil => simp [startsWithChars]
  | cons a ha => simp [startsWithChars]

theorem filter_orderedInsert (t : Nat) (x : ChatSession) (l : List ChatSession) :
    (List.orderedInsert recencyLe x l).filter (fun s => s.updatedAt == t) =
      if x.updatedAt == t then x :: l.filter (fun s => s.updatedAt == t)
      else l.filter (fun s => s.updatedAt == t) := by
  induction l with
  | nil =>
    simp only [List.orderedInsert, List.filter_cons, List.filter_nil]
  | cons y ys ih =>
    simp only [List.orderedInsert]
    by_cases hins : recencyLe x y
    · rw [if_pos hins, List.filter_cons]
    · rw [if_neg hins, List.filter_cons, ih, List.filter_cons]
      by_cases hy : (y.updatedAt == t) = true
      · have hxt : ¬(x.updatedAt == t) = true := by
          simp only [recencyLe] at hins
          simp only [beq_iff_eq] at hy ⊢
          omega
        simp only [if_pos hy, if_neg hxt]
      · simp only [if_neg hy]

theorem filter_sortByRecency (t : Nat) (l : List ChatSession) :
    (sortByRecency l).filter (fun s => s.updatedAt == t) =
      l.filter (fun s => s.updatedAt == t) := by
  induction l with
  | nil => rfl
  | cons x xs ih =>
    simp only [sortByRecency, List.insertionSort] at ih ⊢
    rw [filter_orderedInsert, List.filter_cons]
    split <;> simp [ih]

theorem isTableSeparatorLine_iff (l : Chars) :
    isTableSeparatorLine l = true ↔ SepLineSpec l := by
  unfold isTableSeparatorLine SepLineSpec
  simp [Bool.and_eq_true, startsWithChars_pipe_iff, List.isEmpty_iff,
    List.filter_eq_nil_iff, List.any_eq_true, isSepChar, ws]
  constructor
  · rintro ⟨⟨h1, h2⟩, h3⟩
    refine ⟨h1, fun c hc => ?_, h3⟩
    by_cases hp : c = '|'
    · exact Or.inl hp
    by_cases hw : c.isWhitespace = true
    · exact Or.inr (Or.inl hw)
    by_cases hcol : c = ':'
    · exact Or.inr (Or.inr (Or.inl hcol))
    · exact Or.inr (Or.inr (Or.inr (h2 c hc hp (by simpa using hw) hcol)))
  · rintro ⟨h1, h2, h3⟩
    refine ⟨⟨h1, fun a ha hp hw hcol => ?_⟩, h3⟩
    rcases h2 a ha with h | h | h | h
    · exact absurd h hp
    · simp [h] at hw
    · exact absurd h hcol
    · exact h

theorem isTableStart_iff (l : Chars) (rest : List Chars) :
    isTableStart l rest = true ↔ TableStartSpec l rest := by
  unfold isTableStart TableStartSpec
  cases rest with
  | nil => simp [startsWithChars_pipe_iff]
  | cons nxt tl =>
    simp only [Bool.and_eq_true, startsWithChars_pipe_iff, isTableSeparatorLine_iff]
    constructor
    · rintro ⟨h1, h2⟩
      exact ⟨h1, nxt, tl, rfl, h2⟩
    · rintro ⟨h1, nxt2, tl2, heq, h2⟩
      cases heq
      exact ⟨h1, h2⟩

/-- C2: a table starts exactly when the current line, trimmed, begins
with a pipe and the next line is a separator line in the spec's sense
(trimmed, starts with a pipe, only pipe/whitespace/colon/hyphen
characters, at least one hyphen); consequently
`"|a|b|\n|-|-|\n|1|2|"` yields one Table segment with header
`["a","b"]` and row `["1","2"]`, and `"|a|b|\n|--|\n|1|2|"` is still
recognized as a table despite the header/separator column-count
mismatch. -/
theorem c2_table_start_detection :
    (∀ l : Chars, isTableSeparatorLine l = true ↔ SepLineSpec l) ∧
    (∀ (l : Chars) (rest : List Chars),
      isTableStart l rest = true ↔ TableStartSpec l rest) ∧
    segmentText "|a|b|\n|-|-|\n|1|2|" = [Segment.table ["a", "b"] [["1", "2"]]] ∧
    segmentText "|a|b|\n|--|\n|1|2|" = [Segment.table ["a", "b"] [["1", "2"]]] := by
  refine ⟨isTableSeparatorLine_iff, isTableStart_iff, ?_, ?_⟩ <;>
    simp [segmentText, segmentChars, segmentLines, normalizeNewlines, splitOnChar,
      isTableStart, trimChars, startsWithChars, proseRun, dropBlanks, joinSep,
      stripInlineMarkdown, stripBold, stripCode, isBlank, ws, scanBoldInner,
      scanCodeInner, backtick, isTableSeparatorLine, String.mk, splitMarkdownRow,
      tableRows, isSepChar]

/-- C7 counterexample: the claim says search results come in
`listByRecency` order (`updatedAt` descending).  In the code, `searchChat`
filters the `sessions` array in its own order and never re-sorts; a store
whose array order disagrees with recency order (which arises whenever an
older array entry is updated by an append) returns matches in array
order. -/
theorem c7_counterexample :
    searchMatches ⟨[⟨"a", "x", [], 1, 1⟩, ⟨"b", "x", [], 2, 2⟩], some "a"⟩ "x" =
        [⟨"a", "x", [], 1, 1⟩, ⟨"b", "x", [], 2, 2⟩] ∧
    listByRecency ⟨[⟨"a", "x", [], 1, 1⟩, ⟨"b", "x", [], 2, 2⟩], some "a"⟩ =
        [⟨"b", "x", [], 2, 2⟩, ⟨"a", "x", [], 1, 1⟩] ∧
    ([⟨"a", "x", [], 1, 1⟩, ⟨"b", "x", [], 2, 2⟩] : List ChatSession) ≠
        [⟨"b", "x", [], 2, 2⟩, ⟨"a", "x", [], 1, 1⟩] := by
  refine ⟨by decide, by decide, by decide⟩

/-- C7 (amended): `searchChat` trims and lowercases the query, matches it
case-insensitively as a substring against a session's title or any of its
messages' contents, returns no results for an empty or whitespace-only
query regardless of store contents, and returns the matching sessions in
the sessions array's own order (a sublist of `sessions`), not re-sorted
by recency; a session titled `"Weather"` matches the query `"weather"`. -/
theorem c7_search (st : Store) (keyword : String) :
    (trimChars keyword.data = [] → searchMatches st keyword = []) ∧
    (searchMatches st keyword).Sublist st.sessions ∧
    (∀ s, s ∈ searchMatches st keyword ↔
      (lowerChars (trimChars keyword.data) ≠ [] ∧ s ∈ st.sessions ∧
        sessionMatches (lowerChars (trimChars keyword.data)) s = true)) ∧
    searchMatches ⟨[⟨"w", "Weather", [], 0, 0⟩], some "w"⟩ "weather" =
        [⟨"w", "Weather", [], 0, 0⟩] := by
  refine ⟨?_, ?_, ?_, by decide⟩
  · intro h
    simp [searchMatches, h, lowerChars]
  · simp only [searchMatches]
    split
    · exact List.nil_sublist _
    · exact List.filter_sublist _
  · intro s
    simp only [searchMatches]
    split
    · rename_i hq
      simp only [List.not_mem_nil, false_iff, not_and]
      intro hne
      exact absurd (List.isEmpty_iff.mp hq) hne
    · rename_i hq
      have hne : lowerChars (trimChars keyword.data) ≠ [] := by
        intro h0
        exact absurd (by simp [h0, List.isEmpty_iff]) hq
      simp [List.mem_filter, hne]

/-- Witness for C7's amended theorem: a whitespace-only query on a
populated store returns nothing, and the case-insensitive example
matches. -/
theorem c7_witness :
    searchMatches ⟨[⟨"w", "Weather", [], 0, 0⟩], some "w"⟩ "   " = [] ∧
    (searchMatches ⟨[⟨"w", "Weather", [], 0, 0⟩], some "w"⟩ "weather").Sublist
        [⟨"w", "Weather", [], 0, 0⟩] :=
  ⟨(c7_search ⟨[⟨"w", "Weather", [], 0, 0⟩], some "w"⟩ "   ").1 (by decide),
   (c7_search ⟨[⟨"w", "Weather", [], 0, 0⟩], some "w"⟩ "weather").2.1⟩


/-- C10: after `loadSettings` returns, the in-memory settings'
`temperature` always equals the built-in default `0.7` and `maxTokens`
always equals the built-in default `null`, for every persisted settings
blob (present, absent, or corrupt — `none` models the last two); only
`apiBaseUrl`, `modelId` and `systemPrompt` round-trip through
persistence. -/
theorem c10_settings_reset (p : Option PartialSettings) (a m sp : String)
    (t : Option ℚ) (mt : Option (Option Nat)) :
    (loadSettings p).temperature = 7 / 10 ∧
    (loadSettings p).maxTokens = none ∧
    loadSettings (some ⟨some a, some m, some sp, t, mt⟩) =
      { apiBaseUrl := a, modelId := m, systemPrompt := sp,
        temperature := 7 / 10, maxTokens := none } := by
  refine ⟨?_, ?_, ?_⟩ <;> cases p <;> rfl

/-- C3: `appendMessage` fails with a `NotFound` error when no session in
the store has the given id (the `if (!session) return;` guard of
`handleSend`), and in that case the store's state is unchanged. -/
theorem c3_append_unknown_id (st : Store) (id : String) (role : Role)
    (content : String) (now : Nat) (h : ∀ s ∈ st.sessions, s.id ≠ id) :
    appendMessage st id role content now = .error .notFound ∧
    appendMessageOr st id role content now = st := by
  have hfind : st.sessions.find? (fun s => s.id == id) = none := by
    rw [List.find?_eq_none]
    intro s hs
    simpa using h s hs
  constructor
  · simp [appendMessage, hfind]
  · simp [appendMessageOr, appendMessage, hfind]

/-- Witness for C3 at a concrete store: a one-session store and a lookup
of an absent id. -/
theorem c3_witness :
    appendMessage ⟨[mkSession "a" "t" 0], some "a"⟩ "b" .user "hi" 1 =
        .error .notFound ∧
    appendMessageOr ⟨[mkSession "a" "t" 0], some "a"⟩ "b" .user "hi" 1 =
        ⟨[mkSession "a" "t" 0], some "a"⟩ :=
  c3_append_unknown_id ⟨[mkSession "a" "t" 0], some "a"⟩ "b" .user "hi" 1
    (by decide)

theorem mem_removeFirstById_of_ne (delId : String) (s : ChatSession)
    (l : List ChatSession) (hs : s ∈ l) (hne : s.id ≠ delId) :
    s ∈ removeFirstById delId l := by
  induction l with
  | nil => cases hs
  | cons y ys ih =>
    simp only [removeFirstById]
    rcases List.mem_cons.mp hs with rfl | hmem
    · rw [if_neg hne]
      exact List.mem_cons_self _ _
    · split
      · exact hmem
      · exact List.mem_cons_of_mem _ (ih hmem)

theorem sortByRecency_ne_nil (l : List ChatSession) (h : l ≠ []) :
    sortByRecency l ≠ [] := by
  intro h0
  have hp := (List.perm_insertionSort recencyLe l).length_eq
  rw [sortByRecency] at h0
  rw [h0] at hp
  exact h (List.length_eq_zero.mp hp.symm)

theorem storeInv_load (p : Option (List ChatSession)) (f : String) (n : Nat) :
    storeInv (loadSessions p f n) := by
  unfold loadSessions storeInv
  split
  · exact ⟨by simp, mkSession f defaultTitle n, by simp, by simp [mkSession]⟩
  · rename_i s rest heq
    have hnil := sortByRecency_ne_nil (s :: rest) (by simp)
    cases hsort : sortByRecency (s :: rest) with
    | nil => exact absurd hsort hnil
    | cons h2 t2 =>
      exact ⟨by simp, h2, by simp, by simp⟩

theorem storeInv_create (st : Store) (f t : String) (n : Nat) (h : storeInv st) :
    storeInv (createNewSession st f t n) := by
  obtain ⟨hne, s, hs, hcur⟩ := h
  exact ⟨by simp [createNewSession], s, List.mem_cons_of_mem _ hs, hcur⟩

theorem storeInv_del (st : Store) (d f : String) (n : Nat) (h : storeInv st) :
    storeInv (deleteSession st d f n) := by
  obtain ⟨hne, s, hs, hcur⟩ := h
  unfold deleteSession
  split
  · split
    · exact ⟨by simp, mkSession f defaultTitle n, by simp, by simp [mkSession]⟩
    · rename_i r rs hrem
      split
      · have hnil := sortByRecency_ne_nil (r :: rs) (by simp)
        cases hsort : sortByRecency (r :: rs) with
        | nil => exact absurd hsort hnil
        | cons h2 t2 =>
          exact ⟨by simp, h2, by simp, by simp⟩
      · rename_i hcurne
        refine ⟨by simp, s, ?_, hcur⟩
        have hsid : s.id ≠ d := by
          intro hid
          exact hcurne (by rw [hcur, hid])
        have hmem := mem_removeFirstById_of_ne d s st.sessions hs hsid
        rw [hrem] at hmem
        exact hmem
  · exact ⟨hne, s, hs, hcur⟩

theorem storeInv_applyOp (st : Store) (op : StoreOp) (h : storeInv st) :
    storeInv (applyOp st op) := by
  cases op with
  | create f t n => exact storeInv_create st f t n h
  | del d f n => exact storeInv_del st d f n h
  | load p f n => exact storeInv_load p f n

theorem storeInv_applyOps (st : Store) (ops : List StoreOp) (h : storeInv st) :
    storeInv (applyOps st ops) := by
  induction ops generalizing st with
  | nil => exact h
  | cons op rest ih => exact ih (applyOp st op) (storeInv_applyOp st op h)

/-- C1: for every sequence of store operations (load, create, delete)
following the startup load, the session set is non-empty and
`currentSessionId` references a member of it; and deleting the only
remaining session leaves exactly one session — the freshly auto-created
one — which is selected, never zero sessions. -/
theorem c1_store_current_invariant (persisted : Option (List ChatSession))
    (freshId : String) (now : Nat) (ops : List StoreOp) :
    storeInv (applyOps (loadSessions persisted freshId now) ops) ∧
    (∀ (st : Store) (s : ChatSession) (delId freshId2 : String) (n : Nat),
      st.sessions = [s] → s.id = delId →
      (deleteSession st delId freshId2 n).sessions =
          [mkSession freshId2 defaultTitle n] ∧
      (deleteSession st delId freshId2 n).currentSessionId = some freshId2) := by
  constructor
  · exact storeInv_applyOps _ ops (storeInv_load persisted freshId now)
  · intro st s delId f2 n h1 h2
    constructor <;> simp [deleteSession, h1, removeFirstById, h2]

/-- Witness for C1 at concrete inputs: a load followed by a delete keeps
the invariant, and deleting the single session of a one-session store
leaves the fresh auto-created session selected. -/
theorem c1_witness :
    storeInv (applyOps (loadSessions none "f" 0) [StoreOp.del "f" "g" 1]) ∧
    (deleteSession ⟨[mkSession "a" "t" 0], some "a"⟩ "a" "b" 2).sessions =
        [mkSession "b" defaultTitle 2] ∧
    (deleteSession ⟨[mkSession "a" "t" 0], some "a"⟩ "a" "b" 2).currentSessionId =
        some "b" :=
  ⟨(c1_store_current_invariant none "f" 0 [StoreOp.del "f" "g" 1]).1,
   (c1_store_current_invariant none "f" 0 []).2 ⟨[mkSession "a" "t" 0], some "a"⟩
     (mkSession "a" "t" 0) "a" "b" 2 rfl rfl⟩

theorem find?_updateFirst (p : ChatSession → Bool) (f : ChatSession → ChatSession)
    (hp : ∀ x, p (f x) = p x) (l : List ChatSession) :
    (updateFirst p f l).find? p = (l.find? p).map f := by
  induction l with
  | nil => simp [updateFirst]
  | cons y ys ih =>
    simp only [updateFirst]
    by_cases hy : p y = true
    · rw [if_pos hy, List.find?_cons_of_pos _ (by rw [hp]; exact hy),
        List.find?_cons_of_pos _ hy]
      rfl
    · rw [if_neg hy, List.find?_cons_of_neg _ hy, ih, List.find?_cons_of_neg _ hy]

theorem getCurrentSession_find (st : Store) (s : ChatSession)
    (h : getCurrentSession st = some s) :
    st.sessions.find? (fun x => x.id == s.id) = some s := by
  unfold getCurrentSession at h
  cases hc : st.currentSessionId with
  | none => rw [hc] at h; cases h
  | some cid =>
    rw [hc] at h
    have hsid : s.id = cid := by simpa using List.find?_some h
    rw [← hsid] at h
    exact h

theorem handleSendUser_eq_append (st : Store) (s : ChatSession) (input : String)
    (now : Nat) (hcur : getCurrentSession st = some s)
    (hne : String.mk (trimChars input.data) ≠ "") :
    handleSendUser st input now =
      appendMessageOr st s.id .user (String.mk (trimChars input.data)) now := by
  unfold handleSendUser
  rw [hcur]
  simp only [if_neg hne]

theorem appendMessageOr_find_self (st : Store) (id : String) (r : Role)
    (c : String) (n : Nat) (s : ChatSession)
    (hfind : st.sessions.find? (fun x => x.id == id) = some s) :
    (appendMessageOr st id r c n).sessions.find? (fun x => x.id == id) =
      some { s with
        title := if s.messages.isEmpty then deriveTitle c else s.title,
        messages := s.messages ++ [⟨r, c, n⟩],
        updatedAt := n } := by
  unfold appendMessageOr appendMessage
  rw [hfind]
  simp only
  rw [find?_updateFirst, hfind]
  · rfl
  · intro x
    rfl

/-- C5 and C9 share this corrected claim's machinery; C4 is settled
first.

C4 counterexample: the claim says appending a first message of only
whitespace yields the default placeholder title.  In the code, a
whitespace-only input is rejected by `handleSend` before anything is
appended (the title stays `"t"` and no message is added); and even the
inner derivation applied to the raw whitespace content would produce the
one-space title `" "` (a truthy string in JavaScript), not the
placeholder. -/
theorem c4_counterexample :
    handleSendUser ⟨[⟨"s1", "t", [], 0, 0⟩], some "s1"⟩ "   " 5 =
        ⟨[⟨"s1", "t", [], 0, 0⟩], some "s1"⟩ ∧
    (appendMessageOr ⟨[⟨"s1", "t", [], 0, 0⟩], some "s1"⟩ "s1" .user "   " 5).sessions =
        [⟨"s1", " ", [⟨.user, "   ", 5⟩], 0, 5⟩] ∧
    (" " : String) ≠ defaultTitle ∧ ("t" : String) ≠ defaultTitle := by
  refine ⟨by decide, by decide, by decide, by decide⟩

/-- C4 (amended): `handleSend` trims the input first; when the first
message is appended to the current session, the title becomes the
whitespace-collapsed, 30-character-truncated trimmed input, so
`"  hello   world  "` yields the title `"hello world"`.  A whitespace-only
input is rejected before appending: the store is unchanged (no message,
title untouched), so the placeholder fallback of the derivation is
unreachable through `handleSend`.  Titles never exceed 30 characters
except for the placeholder (which is 7). -/
theorem c4_title_derivation :
    (∀ (st : Store) (s : ChatSession) (now : Nat),
      getCurrentSession st = some s → s.messages = [] →
      ((handleSendUser st "  hello   world  " now).sessions.find?
          (fun x => x.id == s.id)).map (fun x => x.title) = some "hello world") ∧
    (∀ (st : Store) (input : String) (now : Nat),
      trimChars input.data = [] → handleSendUser st input now = st) ∧
    (∀ content : String, (deriveTitle content).data.length ≤ 30) := by
  refine ⟨?_, ?_, ?_⟩
  · intro st s now hcur hmsg
    have hfind := getCurrentSession_find st s hcur
    rw [handleSendUser_eq_append st s _ now hcur (by decide)]
    rw [appendMessageOr_find_self st s.id .user _ now s hfind]
    rw [Option.map_some']
    have : s.messages.isEmpty = true := by simp [hmsg]
    simp only [this, if_pos]
    decide
  · intro st input now h
    unfold handleSendUser
    cases hcur : getCurrentSession st with
    | none => rfl
    | some s =>
      rw [h]
      rfl
  · intro content
    simp only [deriveTitle]
    split
    · decide
    · simp [List.length_take]

/-- Witness for C4's amended theorem at a concrete store: the title after
the first append, the whitespace-only no-op, and the length bound. -/
theorem c4_witness :
    ((handleSendUser ⟨[⟨"s1", "t", [], 0, 0⟩], some "s1"⟩ "  hello   world  " 7).sessions.find?
        (fun x => x.id == "s1")).map (fun x => x.title) = some "hello world" ∧
    handleSendUser ⟨[⟨"s1", "t", [], 0, 0⟩], some "s1"⟩ " " 7 =
        ⟨[⟨"s1", "t", [], 0, 0⟩], some "s1"⟩ ∧
    (deriveTitle "abc").data.length ≤ 30 :=
  ⟨c4_title_derivation.1 ⟨[⟨"s1", "t", [], 0, 0⟩], some "s1"⟩ ⟨"s1", "t", [], 0, 0⟩ 7
      (by decide) rfl,
   c4_title_derivation.2.1 ⟨[⟨"s1", "t", [], 0, 0⟩], some "s1"⟩ " " 7 (by decide),
   c4_title_derivation.2.2 "abc"⟩

/-- C6: `listByRecency` (the sidebar's
`sessions.slice().sort((a, b) => b.updatedAt - a.updatedAt)`) returns all
sessions (a permutation of the store's collection) sorted by `updatedAt`
descending, and the sort is stable: for every timestamp, the sessions
carrying it appear in the output in their original relative order (their
filtered subsequences coincide). -/
theorem c6_list_by_recency (st : Store) :
    (listByRecency st).Perm st.sessions ∧
    (listByRecency st).Sorted (fun a b => b.updatedAt ≤ a.updatedAt) ∧
    ∀ t : Nat, (listByRecency st).filter (fun s => s.updatedAt == t) =
      st.sessions.filter (fun s => s.updatedAt == t) :=
  ⟨List.perm_insertionSort recencyLe st.sessions,
   List.sorted_insertionSort recencyLe st.sessions,
   fun t => filter_sortByRecency t st.sessions⟩

theorem mem_updateFirst (p : ChatSession → Bool) (f : ChatSession → ChatSession)
    (l : List ChatSession) (x : ChatSession) (hx : x ∈ updateFirst p f l) :
    x ∈ l ∨ ∃ y ∈ l, x = f y := by
  induction l with
  | nil => cases hx
  | cons y ys ih =>
    simp only [updateFirst] at hx
    by_cases hy : p y = true
    · rw [if_pos hy] at hx
      rcases List.mem_cons.mp hx with rfl | hmem
      · exact Or.inr ⟨y, List.mem_cons_self _ _, rfl⟩
      · exact Or.inl (List.mem_cons_of_mem _ hmem)
    · rw [if_neg hy] at hx
      rcases List.mem_cons.mp hx with rfl | hmem
      · exact Or.inl (List.mem_cons_self _ _)
      · rcases ih hmem with h | ⟨z, hz, rfl⟩
        · exact Or.inl (List.mem_cons_of_mem _ h)
        · exact Or.inr ⟨z, List.mem_cons_of_mem _ hz, rfl⟩

theorem find?_updateFirst_ne (i j : String) (f : ChatSession → ChatSession)
    (hid : ∀ x, (f x).id = x.id) (hne : j ≠ i) (l : List ChatSession) :
    (updateFirst (fun x => x.id == i) f l).find? (fun x => x.id == j) =
      l.find? (fun x => x.id == j) := by
  induction l with
  | nil => simp [updateFirst]
  | cons y ys ih =>
    simp only [updateFirst]
    by_cases hy : (y.id == i) = true
    · rw [if_pos hy]
      have hyi : y.id = i := by simpa using hy
      have hyj : (y.id == j) = false := by
        simp only [beq_eq_false_iff_ne, ne_eq, hyi]
        exact fun hh => hne hh.symm
      have hfyj : ((f y).id == j) = false := by
        rw [hid y]
        exact hyj
      simp only [List.find?, hyj, hfyj]
    · rw [if_neg hy]
      simp only [List.find?]
      by_cases hyj : (y.id == j) = true
      · simp only [hyj]
      · have hyj2 : (y.id == j) = false := by simpa using hyj
        simp only [hyj2, ih]

theorem appendMessageOr_find_other (st : Store) (i : String) (r : Role)
    (c : String) (n : Nat) (j : String) (hne : j ≠ i) :
    (appendMessageOr st i r c n).sessions.find? (fun x => x.id == j) =
      st.sessions.find? (fun x => x.id == j) := by
  unfold appendMessageOr appendMessage
  cases hf : st.sessions.find? (fun x => x.id == i) with
  | none => rfl
  | some s0 =>
    simp only
    refine find?_updateFirst_ne i j _ ?_ hne st.sessions
    intro x
    rfl

theorem appendMessageOr_updatedAt_le (st : Store) (i : String) (r : Role)
    (c : String) (n t0 : Nat) (h : ∀ s ∈ st.sessions, s.updatedAt ≤ t0)
    (hn : t0 ≤ n) :
    ∀ s ∈ (appendMessageOr st i r c n).sessions, s.updatedAt ≤ n := by
  unfold appendMessageOr appendMessage
  cases hf : st.sessions.find? (fun x => x.id == i) with
  | none =>
    intro s hs
    exact le_trans (h s hs) hn
  | some s0 =>
    intro s hs
    simp only at hs
    rcases mem_updateFirst _ _ _ _ hs with hold | ⟨y, hy, rfl⟩
    · exact le_trans (h s hold) hn
    · exact le_refl n

theorem appendMessageOr_inv (st : Store) (i : String) (r : Role) (c : String)
    (n t0 : Nat)
    (h : ∀ s ∈ st.sessions, s.createdAt ≤ s.updatedAt ∧ s.updatedAt ≤ t0)
    (hn : t0 ≤ n) :
    ∀ s ∈ (appendMessageOr st i r c n).sessions,
      s.createdAt ≤ s.updatedAt ∧ s.updatedAt ≤ n := by
  unfold appendMessageOr appendMessage
  cases hf : st.sessions.find? (fun x => x.id == i) with
  | none =>
    intro s hs
    exact ⟨(h s hs).1, le_trans (h s hs).2 hn⟩
  | some s0 =>
    intro s hs
    simp only at hs
    rcases mem_updateFirst _ _ _ _ hs with hold | ⟨y, hy, rfl⟩
    · exact ⟨(h s hold).1, le_trans (h s hold).2 hn⟩
    · have hy2 := h y hy
      exact ⟨le_trans hy2.1 (le_trans hy2.2 hn), le_refl n⟩

theorem applyAppends_inv (ops : List (String × Role × String × Nat)) :
    ∀ (st : Store) (t0 : Nat),
    (∀ s ∈ st.sessions, s.createdAt ≤ s.updatedAt ∧ s.updatedAt ≤ t0) →
    List.Chain (· ≤ ·) t0 (ops.map (fun o => o.2.2.2)) →
    ∀ s ∈ (applyAppends st ops).sessions, s.createdAt ≤ s.updatedAt := by
  induction ops with
  | nil =>
    intro st t0 h _ s hs
    exact (h s hs).1
  | cons op rest ih =>
    intro st t0 h hchain s hs
    obtain ⟨i, r, c, n⟩ := op
    simp only [List.map_cons] at hchain
    rw [List.chain_cons] at hchain
    exact ih (appendMessageOr st i r c n) n
      (appendMessageOr_inv st i r c n t0 h hchain.1) hchain.2 s hs

theorem applyAppends_find_mono (ops : List (String × Role × String × Nat)) :
    ∀ (st : Store) (t0 : Nat),
    (∀ s ∈ st.sessions, s.updatedAt ≤ t0) →
    List.Chain (· ≤ ·) t0 (ops.map (fun o => o.2.2.2)) →
    ∀ (j : String) (s s2 : ChatSession),
      st.sessions.find? (fun x => x.id == j) = some s →
      (applyAppends st ops).sessions.find? (fun x => x.id == j) = some s2 →
      s.updatedAt ≤ s2.updatedAt := by
  induction ops with
  | nil =>
    intro st t0 h _ j s s2 h1 h2
    simp only [applyAppends] at h2
    rw [h1] at h2
    cases h2
    exact le_refl _
  | cons op rest ih =>
    intro st t0 h hchain j s s2 h1 h2
    obtain ⟨i, r, c, n⟩ := op
    simp only [List.map_cons] at hchain
    rw [List.chain_cons] at hchain
    obtain ⟨hle, hch⟩ := hchain
    by_cases hji : j = i
    · subst hji
      have hf1 := appendMessageOr_find_self st j r c n s h1
      have hmono := ih (appendMessageOr st j r c n) n
        (appendMessageOr_updatedAt_le st j r c n t0 h hle) hch j _ s2 hf1 h2
      have hs0 : s.updatedAt ≤ t0 := h s (List.mem_of_find?_eq_some h1)
      exact le_trans (le_trans hs0 hle) hmono
    · have hf1 := appendMessageOr_find_other st i r c n j hji
      rw [h1] at hf1
      exact ih (appendMessageOr st i r c n) n
        (appendMessageOr_updatedAt_le st i r c n t0 h hle) hch j s s2 hf1 h2

theorem appendMessage_sets_updatedAt (st : Store) (i : String) (r : Role)
    (c : String) (n : Nat) (st2 : Store)
    (h : appendMessage st i r c n = .ok st2) (s2 : ChatSession)
    (h2 : st2.sessions.find? (fun x => x.id == i) = some s2) :
    s2.updatedAt = n := by
  have hOr : appendMessageOr st i r c n = st2 := by
    unfold appendMessageOr
    rw [h]
  cases hf : st.sessions.find? (fun x => x.id == i) with
  | none =>
    unfold appendMessage at h
    rw [hf] at h
    cases h
  | some s0 =>
    have hfs := appendMessageOr_find_self st i r c n s0 hf
    rw [hOr, h2] at hfs
    have hss := Option.some_inj.mp hfs
    rw [hss]

/-- C8: every successful `appendMessage` sets the target session's
`updatedAt` to the append timestamp; consequently, starting from a store
whose sessions satisfy `createdAt ≤ updatedAt` (with all `updatedAt`
bounded by the clock), after any sequence of appends with non-decreasing
timestamps every session still satisfies `updatedAt ≥ createdAt`, and no
session's `updatedAt` ever decreases. -/
theorem c8_updated_at :
    (∀ (st : Store) (id : String) (r : Role) (c : String) (n : Nat) (st2 : Store),
      appendMessage st id r c n = .ok st2 →
      ∀ s2, st2.sessions.find? (fun x => x.id == id) = some s2 →
        s2.updatedAt = n) ∧
    (∀ (st : Store) (t0 : Nat) (ops : List (String × Role × String × Nat)),
      (∀ s ∈ st.sessions, s.createdAt ≤ s.updatedAt ∧ s.updatedAt ≤ t0) →
      List.Chain (· ≤ ·) t0 (ops.map (fun o => o.2.2.2)) →
      (∀ s ∈ (applyAppends st ops).sessions, s.createdAt ≤ s.updatedAt) ∧
      (∀ (j : String) (s s2 : ChatSession),
        st.sessions.find? (fun x => x.id == j) = some s →
        (applyAppends st ops).sessions.find? (fun x => x.id == j) = some s2 →
        s.updatedAt ≤ s2.updatedAt)) := by
  constructor
  · intro st id r c n st2 h s2 h2
    exact appendMessage_sets_updatedAt st id r c n st2 h s2 h2
  · intro st t0 ops h hchain
    constructor
    · exact applyAppends_inv ops st t0 h hchain
    · exact applyAppends_find_mono ops st t0 (fun s hs => (h s hs).2) hchain

/-- Witness for C8 at a concrete store: a single append stamps
`updatedAt` with the append time, and across two appends at times 1 and 2
the session's `updatedAt` does not decrease. -/
theorem c8_witness :
    (⟨"a", "x", [⟨Role.user, "x", 1⟩], 0, 1⟩ : ChatSession).updatedAt = 1 ∧
    (⟨"a", "t", [], 0, 0⟩ : ChatSession).updatedAt ≤
      (⟨"a", "x", [⟨Role.user, "x", 1⟩, ⟨Role.user, "y", 2⟩], 0, 2⟩ : ChatSession).updatedAt :=
  ⟨c8_updated_at.1 ⟨[⟨"a", "t", [], 0, 0⟩], some "a"⟩ "a" .user "x" 1
      (appendMessageOr ⟨[⟨"a", "t", [], 0, 0⟩], some "a"⟩ "a" .user "x" 1)
      rfl ⟨"a", "x", [⟨Role.user, "x", 1⟩], 0, 1⟩ (by decide),
   (c8_updated_at.2 ⟨[⟨"a", "t", [], 0, 0⟩], some "a"⟩ 0
      [("a", Role.user, "x", 1), ("a", Role.user, "y", 2)]
      (by decide) (by simp [List.chain_cons])).2 "a" ⟨"a", "t", [], 0, 0⟩
      ⟨"a", "x", [⟨Role.user, "x", 1⟩, ⟨Role.user, "y", 2⟩], 0, 2⟩
      (by decide) (by decide)⟩

theorem splitOnChar_ne_nil (sep : Char) (cs : Chars) : splitOnChar sep cs ≠ [] := by
  induction cs with
  | nil => simp [splitOnChar]
  | cons c rest ih =>
    simp only [splitOnChar]
    split
    · simp
    · cases hr : splitOnChar sep rest with
      | nil => simp
      | cons h t => simp

theorem joinSep_splitOnChar (sep : Char) (cs : Chars) :
    joinSep [sep] (splitOnChar sep cs) = cs := by
  induction cs with
  | nil => rfl
  | cons c rest ih =>
    simp only [splitOnChar]
    by_cases hc : c = sep
    · rw [if_pos hc]
      subst hc
      cases hr : splitOnChar c rest with
      | nil => exact absurd hr (splitOnChar_ne_nil c rest)
      | cons h t =>
        rw [hr] at ih
        simp only [joinSep]
        simp [ih]
    · rw [if_neg hc]
      cases hr : splitOnChar sep rest with
      | nil => exact absurd hr (splitOnChar_ne_nil sep rest)
      | cons h t =>
        rw [hr] at ih
        cases t with
        | nil =>
          simp only [joinSep] at ih ⊢
          rw [ih]
        | cons h2 t2 =>
          simp only [joinSep] at ih ⊢
          rw [← ih]
          simp

theorem mem_splitOnChar (sep : Char) (cs : Chars) :
    ∀ l ∈ splitOnChar sep cs, ∀ c ∈ l, c ∈ cs ∧ c ≠ sep := by
  induction cs with
  | nil =>
    intro l hl c hc
    simp only [splitOnChar, List.mem_singleton] at hl
    subst hl
    cases hc
  | cons a rest ih =>
    intro l hl c hc
    simp only [splitOnChar] at hl
    by_cases ha : a = sep
    · rw [if_pos ha] at hl
      rcases List.mem_cons.mp hl with rfl | hmem
      · cases hc
      · have hm := ih l hmem c hc
        exact ⟨List.mem_cons_of_mem _ hm.1, hm.2⟩
    · rw [if_neg ha] at hl
      cases hr : splitOnChar sep rest with
      | nil => exact absurd hr (splitOnChar_ne_nil sep rest)
      | cons h t =>
        rw [hr] at hl
        rcases List.mem_cons.mp hl with rfl | hmem
        · rcases List.mem_cons.mp hc with rfl | hc2
          · exact ⟨List.mem_cons_self _ _, ha⟩
          · have hm := ih h (by rw [hr]; exact List.mem_cons_self _ _) c hc2
            exact ⟨List.mem_cons_of_mem _ hm.1, hm.2⟩
        · have hm := ih l (by rw [hr]; exact List.mem_cons_of_mem _ hmem) c hc
          exact ⟨List.mem_cons_of_mem _ hm.1, hm.2⟩

theorem splitOnChar_append (sep : Char) (a b : Chars) :
    splitOnChar sep (a ++ sep :: b) = splitOnChar sep a ++ splitOnChar sep b := by
  induction a with
  | nil => simp [splitOnChar]
  | cons c a2 ih =>
    simp only [List.cons_append, splitOnChar, List.append_eq]
    by_cases hc : c = sep
    · rw [if_pos hc, if_pos hc, ih]
      rfl
    · rw [if_neg hc, if_neg hc, ih]
      cases ha : splitOnChar sep a2 with
      | nil => exact absurd ha (splitOnChar_ne_nil sep a2)
      | cons h t => simp

theorem splitOnChar_no_sep (sep : Char) (p : Chars) (h : sep ∉ p) :
    splitOnChar sep p = [p] := by
  induction p with
  | nil => rfl
  | cons c rest ih =>
    simp only [splitOnChar]
    rw [if_neg (by intro hh; exact h (hh ▸ List.mem_cons_self _ _))]
    rw [ih (fun hm => h (List.mem_cons_of_mem _ hm))]

theorem splitOnChar_joinSep (sep : Char) (ps : List Chars) (hne : ps ≠ [])
    (hfree : ∀ p ∈ ps, sep ∉ p) :
    splitOnChar sep (joinSep [sep] ps) = ps := by
  induction ps with
  | nil => exact absurd rfl hne
  | cons p rest ih =>
    cases rest with
    | nil =>
      simp only [joinSep]
      exact splitOnChar_no_sep sep p (hfree p (List.mem_cons_self _ _))
    | cons q t =>
      simp only [joinSep]
      rw [show p ++ [sep] ++ joinSep [sep] (q :: t) = p ++ sep :: joinSep [sep] (q :: t) by simp]
      rw [splitOnChar_append, splitOnChar_no_sep sep p (hfree p (List.mem_cons_self _ _)),
        ih (by simp) (fun x hx => hfree x (List.mem_cons_of_mem _ hx))]
      rfl

theorem mem_normalizeNewlines (cs : Chars) :
    ∀ c ∈ normalizeNewlines cs, c ∈ cs := by
  induction cs using normalizeNewlines.induct with
  | case1 => intro c hc; cases hc
  | case2 rest ih =>
    intro c hc
    simp only [normalizeNewlines] at hc
    rcases List.mem_cons.mp hc with rfl | hmem
    · simp
    · exact List.mem_cons_of_mem _ (List.mem_cons_of_mem _ (ih c hmem))
  | case3 a rest hne ih =>
    intro c hc
    rw [normalizeNewlines.eq_def] at hc
    split at hc
    · cases hc
    · rename_i rest2 heq
      injection heq with h1 h2
      exact (hne rest2 h1 h2).elim
    · rename_i c2 rest2 heq
      injection heq with h1 h2
      subst h1
      subst h2
      rcases List.mem_cons.mp hc with rfl | hmem
      · exact List.mem_cons_self _ _
      · exact List.mem_cons_of_mem _ (ih c hmem)

theorem normalizeNewlines_eq_self (cs : Chars) :
    (∀ c ∈ cs, c ≠ '\r') → normalizeNewlines cs = cs := by
  induction cs using normalizeNewlines.induct with
  | case1 => intro h; rfl
  | case2 rest ih => intro h; exact absurd rfl (h '\r' (List.mem_cons_self _ _))
  | case3 a rest hne ih =>
    intro h
    rw [normalizeNewlines.eq_def]
    split
    · rename_i heq
      cases heq
    · rename_i rest2 heq
      injection heq with h1 h2
      exact (hne rest2 h1 h2).elim
    · rename_i c2 rest2 heq
      injection heq with h1 h2
      subst h1
      subst h2
      rw [ih (fun c hc => h c (List.mem_cons_of_mem _ hc))]

theorem stripBold_eq_self : ∀ cs : Chars, (∀ c ∈ cs, c ≠ '*') → stripBold cs = cs
  | [], _ => by simp [stripBold]
  | [c], _ => by simp [stripBold]
  | c :: d :: rest, h => by
    simp only [stripBold]
    rw [if_neg (by
      intro hcd
      exact h c (List.mem_cons_self _ _) hcd.1)]
    rw [stripBold_eq_self (d :: rest) (fun x hx => h x (List.mem_cons_of_mem _ hx))]

theorem stripCode_eq_self : ∀ cs : Chars, (∀ c ∈ cs, c ≠ backtick) → stripCode cs = cs
  | [], _ => by simp [stripCode]
  | c :: rest, h => by
    simp only [stripCode]
    rw [if_neg (h c (List.mem_cons_self _ _))]
    rw [stripCode_eq_self rest (fun x hx => h x (List.mem_cons_of_mem _ hx))]

theorem stripInlineMarkdown_eq_self (cs : Chars)
    (h : ∀ c ∈ cs, c ≠ '*' ∧ c ≠ backtick) :
    stripInlineMarkdown cs = cs := by
  unfold stripInlineMarkdown
  rw [stripBold_eq_self cs (fun c hc => (h c hc).1),
    stripCode_eq_self cs (fun c hc => (h c hc).2)]

theorem mem_trimChars (l : Chars) (c : Char) (hc : c ∈ trimChars l) : c ∈ l := by
  unfold trimChars at hc
  have h1 := List.mem_reverse.mp hc
  have h2 := (List.dropWhile_sublist _).subset h1
  have h3 := List.mem_reverse.mp h2
  exact (List.dropWhile_sublist _).subset h3

theorem startsWithPipe_trim_false (l : Chars) (h : ∀ c ∈ l, c ≠ '|') :
    startsWithChars (trimChars l) ['|'] = false := by
  cases ht : trimChars l with
  | nil => rfl
  | cons a rest =>
    have ha : a ∈ l := mem_trimChars l a (ht ▸ List.mem_cons_self _ _)
    simp [startsWithChars, h a ha]

theorem isTableStart_false_of_no_pipe (l : Chars) (rest : List Chars)
    (h : ∀ c ∈ l, c ≠ '|') : isTableStart l rest = false := by
  simp [isTableStart, startsWithPipe_trim_false l h]

theorem isTableStart_false_of_blank (l : Chars) (rest : List Chars)
    (h : isBlank l = true) : isTableStart l rest = false := by
  unfold isTableStart
  have ht : trimChars l = [] := by simpa [isBlank, List.isEmpty_iff] using h
  rw [ht]
  simp [startsWithChars]

theorem proseRun_spec : ∀ (ls acc : List Chars), acc ≠ [] →
    ∃ D rest2, proseRun acc ls = (acc.reverse ++ D, rest2) ∧ ls = D ++ rest2 ∧
      (∀ d ∈ D, isBlank d = false) ∧
      (rest2 = [] ∨ ∃ h2 t2, rest2 = h2 :: t2 ∧
        (isTableStart h2 t2 = true ∨ isBlank h2 = true)) := by
  intro ls
  induction ls with
  | nil =>
    intro acc hacc
    exact ⟨[], [], by simp [proseRun], by simp, by simp, Or.inl rfl⟩
  | cons l rest ih =>
    intro acc hacc
    simp only [proseRun]
    by_cases hts : isTableStart l rest = true
    · rw [if_pos hts]
      exact ⟨[], l :: rest, by simp, rfl, by simp, Or.inr ⟨l, rest, rfl, Or.inl hts⟩⟩
    · rw [if_neg hts]
      by_cases hbl : (isBlank l && !acc.isEmpty) = true
      · rw [if_pos hbl]
        have hb2 := hbl
        rw [Bool.and_eq_true] at hb2
        have hb : isBlank l = true := hb2.1
        exact ⟨[], l :: rest, by simp, rfl, by simp, Or.inr ⟨l, rest, rfl, Or.inr hb⟩⟩
      · rw [if_neg hbl]
        obtain ⟨D, rest2, h1, h2, h3, h4⟩ := ih (l :: acc) (by simp)
        refine ⟨l :: D, rest2, ?_, by simp [h2], ?_, h4⟩
        · rw [h1]
          simp
        · intro d hd
          rcases List.mem_cons.mp hd with rfl | hmem
          · by_cases hb : isBlank d = true
            · exfalso
              apply hbl
              rw [Bool.and_eq_true]
              exact ⟨hb, by simpa using hacc⟩
            · simpa using hb
          · exact h3 d hmem

theorem mem_tableRows_snd : ∀ ls : List Chars, ∀ l ∈ (tableRows ls).2, l ∈ ls := by
  intro ls
  induction ls with
  | nil =>
    intro l hl
    simpa [tableRows] using hl
  | cons x rest ih =>
    intro l hl
    simp only [tableRows] at hl
    split at hl
    · exact hl
    · exact List.mem_cons_of_mem _ (ih l hl)

theorem segmentLines_cons_prose (l : Chars) (rest : List Chars)
    (h : isTableStart l rest = false) :
    segmentLines (l :: rest) =
      Segment.prose (String.mk (stripInlineMarkdown (joinSep ['\n'] (proseRun [l] rest).1))) ::
        segmentLines (dropBlanks (proseRun [l] rest).2) := by
  simp only [segmentLines]
  rw [if_neg (by simp [h])]

theorem segmentLines_cons_table (l : Chars) (rest : List Chars)
    (h : isTableStart l rest = true) :
    segmentLines (l :: rest) =
      Segment.table ((splitMarkdownRow l).map String.mk)
          ((tableRows rest.tail).1.map (fun r => r.map String.mk)) ::
        segmentLines (tableRows rest.tail).2 := by
  simp only [segmentLines]
  rw [if_pos (by simp [h])]

theorem segmentLines_ne_nil (l : Chars) (rest : List Chars) :
    segmentLines (l :: rest) ≠ [] := by
  by_cases h : isTableStart l rest = true
  · rw [segmentLines_cons_table l rest h]
    simp
  · rw [segmentLines_cons_prose l rest (by simpa using h)]
    simp

theorem renderedPlainText_cons (s : Segment) (segs : List Segment) (h : segs ≠ []) :
    renderedPlainText (s :: segs) =
      renderSegment s ++ '\n' :: '\n' :: renderedPlainText segs := by
  unfold renderedPlainText
  cases segs with
  | nil => exact absurd rfl h
  | cons s2 t =>
    simp only [List.map_cons, joinSep]
    simp

theorem renderedPlainText_single (s : Segment) :
    renderedPlainText [s] = renderSegment s := by
  simp [renderedPlainText, joinSep]

theorem mem_joinSep (sep : Chars) (ps : List Chars) :
    ∀ c ∈ joinSep sep ps, c ∈ sep ∨ ∃ p ∈ ps, c ∈ p := by
  induction ps with
  | nil => intro c hc; cases hc
  | cons p rest ih =>
    intro c hc
    cases rest with
    | nil =>
      right
      exact ⟨p, List.mem_cons_self _ _, hc⟩
    | cons q t =>
      simp only [joinSep] at hc
      rcases List.mem_append.mp hc with hc1 | hc2
      · rcases List.mem_append.mp hc1 with hc3 | hc4
        · right
          exact ⟨p, List.mem_cons_self _ _, hc3⟩
        · left
          exact hc4
      · rcases ih c hc2 with h | ⟨x, hx, hcx⟩
        · left
          exact h
        · right
          exact ⟨x, List.mem_cons_of_mem _ hx, hcx⟩

theorem splitOnChar_cons_sep (sep : Char) (cs : Chars) :
    splitOnChar sep (sep :: cs) = [] :: splitOnChar sep cs := by
  simp [splitOnChar]

theorem dropBlanks_head_not_blank : ∀ (ls : List Chars) (l2 : Chars) (t3 : List Chars),
    dropBlanks ls = l2 :: t3 → isBlank l2 = false := by
  intro ls
  induction ls with
  | nil => intro l2 t3 h; cases h
  | cons x rest ih =>
    intro l2 t3 h
    simp only [dropBlanks, List.dropWhile] at h
    split at h
    · exact ih l2 t3 h
    · injection h with h1 h2
      subst h1
      rename_i hx
      simpa using hx

theorem proseRun_all : ∀ (D acc : List Chars),
    (∀ d ∈ D, isBlank d = false) →
    (∀ d ∈ D, ∀ c ∈ d, c ≠ '|') →
    proseRun acc D = (acc.reverse ++ D, []) := by
  intro D
  induction D with
  | nil =>
    intro acc _ _
    simp [proseRun]
  | cons d rest ih =>
    intro acc hb hp
    simp only [proseRun]
    rw [if_neg (by simp [isTableStart_false_of_no_pipe d rest (hp d (List.mem_cons_self _ _))])]
    rw [if_neg (by simp [hb d (List.mem_cons_self _ _)])]
    rw [ih (d :: acc) (fun x hx => hb x (List.mem_cons_of_mem _ hx))
      (fun x hx => hp x (List.mem_cons_of_mem _ hx))]
    simp

theorem proseRun_block : ∀ (D acc tail2 : List Chars),
    (∀ d ∈ D, isBlank d = false) →
    (∀ d ∈ D, ∀ c ∈ d, c ≠ '|') →
    acc ≠ [] →
    proseRun acc (D ++ [] :: tail2) = (acc.reverse ++ D, [] :: tail2) := by
  intro D
  induction D with
  | nil =>
    intro acc tail2 _ _ hacc
    simp only [List.nil_append, proseRun]
    rw [if_neg (by simp [isTableStart_false_of_blank ([] : Chars) tail2 (by decide)])]
    rw [if_pos (by
      rw [Bool.and_eq_true]
      exact ⟨by decide, by simpa using hacc⟩)]
    simp
  | cons d rest ih =>
    intro acc tail2 hb hp hacc
    simp only [List.cons_append, proseRun, List.append_eq]
    rw [if_neg (by simp [isTableStart_false_of_no_pipe d _ (hp d (List.mem_cons_self _ _))])]
    rw [if_neg (by simp [hb d (List.mem_cons_self _ _)])]
    rw [ih (d :: acc) tail2 (fun x hx => hb x (List.mem_cons_of_mem _ hx))
      (fun x hx => hp x (List.mem_cons_of_mem _ hx)) (by simp)]
    simp

theorem segmentLines_reparse : ∀ (n : Nat) (ls : List Chars), ls.length ≤ n →
    (∀ l ∈ ls, ∀ c ∈ l, c ≠ '*' ∧ c ≠ backtick ∧ c ≠ '|' ∧ c ≠ '\n') →
    ls ≠ [] →
    (∀ seg ∈ segmentLines ls, seg.isProse = true) ∧
    (splitOnChar '\n' (renderedPlainText (segmentLines ls))).head? = ls.head? ∧
    (∀ c ∈ renderedPlainText (segmentLines ls), c = '\n' ∨ ∃ l ∈ ls, c ∈ l) ∧
    segmentLines (splitOnChar '\n' (renderedPlainText (segmentLines ls))) =
      segmentLines ls := by
  intro n
  induction n with
  | zero =>
    intro ls hlen hclean hne
    cases ls with
    | nil => exact absurd rfl hne
    | cons l rest => simp at hlen
  | succ n ih =>
    intro ls hlen hclean hne
    cases ls with
    | nil => exact absurd rfl hne
    | cons l rest =>
      have hlinel : ∀ c ∈ l, c ≠ '*' ∧ c ≠ backtick ∧ c ≠ '|' ∧ c ≠ '\n' :=
        hclean l (List.mem_cons_self _ _)
      have hts : isTableStart l rest = false :=
        isTableStart_false_of_no_pipe l rest (fun c hc => (hlinel c hc).2.2.1)
      obtain ⟨D, rest2, h1, h2, h3, h4⟩ := proseRun_spec rest [l] (by simp)
      have hB1 : proseRun [l] rest = (l :: D, rest2) := by
        rw [h1]
        simp
      have hDmem : ∀ d ∈ D, d ∈ l :: rest := by
        intro d hd
        exact List.mem_cons_of_mem _ (h2 ▸ List.mem_append_left _ hd)
      have hBmem : ∀ b ∈ l :: D, b ∈ l :: rest := by
        intro b hb
        rcases List.mem_cons.mp hb with rfl | hb2
        · exact List.mem_cons_self _ _
        · exact hDmem b hb2
      have hrest2mem : ∀ x ∈ rest2, x ∈ l :: rest := by
        intro x hx
        exact List.mem_cons_of_mem _ (h2 ▸ List.mem_append_right _ hx)
      have hBnl : ∀ b ∈ l :: D, '\n' ∉ b := by
        intro b hb hc
        exact (hclean b (hBmem b hb) '\n' hc).2.2.2 rfl
      have hDpipe : ∀ d ∈ D, ∀ c ∈ d, c ≠ '|' := by
        intro d hd c hc
        exact (hclean d (hDmem d hd) c hc).2.2.1
      have hstrip : stripInlineMarkdown (joinSep ['\n'] (l :: D)) =
          joinSep ['\n'] (l :: D) := by
        apply stripInlineMarkdown_eq_self
        intro c hc
        rcases mem_joinSep ['\n'] (l :: D) c hc with hcn | ⟨p, hp, hcp⟩
        · have : c = '\n' := by simpa using hcn
          subst this
          exact ⟨by decide, by decide⟩
        · exact ⟨(hclean p (hBmem p hp) c hcp).1, (hclean p (hBmem p hp) c hcp).2.1⟩
      have hsplitB : splitOnChar '\n' (joinSep ['\n'] (l :: D)) = l :: D :=
        splitOnChar_joinSep '\n' (l :: D) (by simp) hBnl
      have hreB : segmentLines (l :: D) =
          [Segment.prose (String.mk (joinSep ['\n'] (l :: D)))] := by
        rw [segmentLines_cons_prose l D
          (isTableStart_false_of_no_pipe l D (fun c hc => (hlinel c hc).2.2.1))]
        rw [proseRun_all D [l] h3 hDpipe]
        simp only [List.reverse_cons, List.reverse_nil, List.nil_append,
          List.singleton_append]
        rw [hstrip]
        simp [dropBlanks, segmentLines]
      rw [segmentLines_cons_prose l rest hts, hB1]
      simp only
      rw [hstrip]
      cases hdb : dropBlanks rest2 with
      | nil =>
        rw [show segmentLines ([] : List Chars) = [] by simp [segmentLines]]
        rw [renderedPlainText_single]
        simp only [renderSegment]
        rw [hsplitB]
        refine ⟨?_, rfl, ?_, ?_⟩
        · intro seg hseg
          rcases List.mem_cons.mp hseg with rfl | hmem
          · rfl
          · cases hmem
        · intro c hc
          rcases mem_joinSep ['\n'] (l :: D) c hc with hcn | ⟨p, hp, hcp⟩
          · left
            simpa using hcn
          · right
            exact ⟨p, hBmem p hp, hcp⟩
        · rw [hreB]
      | cons l2 t3 =>
        have hl2b : isBlank l2 = false := dropBlanks_head_not_blank rest2 l2 t3 hdb
        have hls2mem : ∀ x ∈ l2 :: t3, x ∈ l :: rest := by
          intro x hx
          exact hrest2mem x ((List.dropWhile_sublist _).subset (hdb ▸ hx))
        have hlen2 : (l2 :: t3).length ≤ n := by
          have e1 : (l2 :: t3).length ≤ rest2.length := by
            rw [← hdb]
            exact (List.dropWhile_sublist _).length_le
          have e2 : rest2.length ≤ rest.length := by
            rw [h2]
            simp
          have e3 : rest.length ≤ n := by
            simpa using Nat.le_of_succ_le_succ (by simpa using hlen)
          omega
        obtain ⟨ihP, ihH, ihC, ihE⟩ := ih (l2 :: t3) hlen2
          (fun x hx => hclean x (hls2mem x hx)) (by simp)
        have hne2 : segmentLines (l2 :: t3) ≠ [] := segmentLines_ne_nil l2 t3
        rw [renderedPlainText_cons _ _ hne2]
        simp only [renderSegment]
        rw [splitOnChar_append, hsplitB, splitOnChar_cons_sep]
        refine ⟨?_, ?_, ?_, ?_⟩
        · intro seg hseg
          rcases List.mem_cons.mp hseg with rfl | hmem
          · rfl
          · exact ihP seg hmem
        · simp
        · intro c hc
          rcases List.mem_append.mp hc with hc1 | hc2
          · rcases mem_joinSep ['\n'] (l :: D) c hc1 with hcn | ⟨p, hp, hcp⟩
            · left
              simpa using hcn
            · right
              exact ⟨p, hBmem p hp, hcp⟩
          · rcases List.mem_cons.mp hc2 with rfl | hc3
            · left
              rfl
            · rcases List.mem_cons.mp hc3 with rfl | hc4
              · left
                rfl
              · rcases ihC c hc4 with h | ⟨x, hx, hcx⟩
                · left
                  exact h
                · right
                  exact ⟨x, hls2mem x hx, hcx⟩
        · rw [show (l :: D) ++ ([] : Chars) ::
              splitOnChar '\n' (renderedPlainText (segmentLines (l2 :: t3))) =
            l :: (D ++ ([] : Chars) ::
              splitOnChar '\n' (renderedPlainText (segmentLines (l2 :: t3)))) by simp]
          rw [segmentLines_cons_prose l _
            (isTableStart_false_of_no_pipe l _ (fun c hc => (hlinel c hc).2.2.1))]
          rw [proseRun_block D [l] _ h3 hDpipe (by simp)]
          simp only
          rw [show ([l] : List Chars).reverse ++ D = l :: D by simp]
          rw [hstrip]
          rw [show dropBlanks (([] : Chars) ::
              splitOnChar '\n' (renderedPlainText (segmentLines (l2 :: t3)))) =
            dropBlanks (splitOnChar '\n' (renderedPlainText (segmentLines (l2 :: t3))))
            from List.dropWhile_cons_of_pos (by decide)]
          cases hL2 : splitOnChar '\n' (renderedPlainText (segmentLines (l2 :: t3))) with
          | nil =>
            exact absurd hL2 (splitOnChar_ne_nil _ _)
          | cons lz tz =>
            have hlz : lz = l2 := by
              have := ihH
              rw [hL2] at this
              simpa using this
            subst hlz
            rw [show dropBlanks (lz :: tz) = lz :: tz from
              List.dropWhile_cons_of_neg (by simp [hl2b])]
            rw [← hL2, ihE]

theorem tableRows_len : ∀ ls : List Chars, (tableRows ls).2.length ≤ ls.length := by
  intro ls
  induction ls with
  | nil => simp [tableRows]
  | cons l rest ih =>
    simp only [tableRows]
    split
    · simp
    · simpa using Nat.le_succ_of_le ih

theorem prose_segment_shape : ∀ (n : Nat) (ls : List Chars), ls.length ≤ n →
    (∀ l ∈ ls, (∀ c ∈ l, c ≠ '*' ∧ c ≠ backtick) ∧ '\n' ∉ l) →
    ∀ t, Segment.prose t ∈ segmentLines ls →
      ∀ d ∈ (splitOnChar '\n' t.data).tail, isBlank d = false := by
  intro n
  induction n with
  | zero =>
    intro ls hlen hclean t ht
    cases ls with
    | nil => simp [segmentLines] at ht
    | cons l rest => simp at hlen
  | succ n ih =>
    intro ls hlen hclean t ht
    cases ls with
    | nil => simp [segmentLines] at ht
    | cons l rest =>
      have hlenr : rest.length ≤ n := by simpa using hlen
      by_cases hts : isTableStart l rest = true
      · rw [segmentLines_cons_table l rest hts] at ht
        rcases List.mem_cons.mp ht with heq | hmem
        · simp at heq
        · refine ih (tableRows rest.tail).2 ?_ ?_ t hmem
          · have e1 := tableRows_len rest.tail
            have e2 : rest.tail.length ≤ rest.length := by
              cases rest <;> simp
            omega
          · intro x hx
            have hx2 : x ∈ rest.tail := mem_tableRows_snd rest.tail x hx
            have hx3 : x ∈ rest := (List.tail_sublist _).subset hx2
            exact hclean x (List.mem_cons_of_mem _ hx3)
      · have hts2 : isTableStart l rest = false := by simpa using hts
        rw [segmentLines_cons_prose l rest hts2] at ht
        obtain ⟨D, rest2, h1, h2, h3, h4⟩ := proseRun_spec rest [l] (by simp)
        have hB1 : proseRun [l] rest = (l :: D, rest2) := by
          rw [h1]
          simp
        rw [hB1] at ht
        simp only at ht
        rcases List.mem_cons.mp ht with heq | hmem
        · have hDmem : ∀ d ∈ D, d ∈ l :: rest := by
            intro d hd
            exact List.mem_cons_of_mem _ (h2 ▸ List.mem_append_left _ hd)
          have hBmem : ∀ b ∈ l :: D, b ∈ l :: rest := by
            intro b hb
            rcases List.mem_cons.mp hb with rfl | hb2
            · exact List.mem_cons_self _ _
            · exact hDmem b hb2
          have hBnl : ∀ b ∈ l :: D, '\n' ∉ b := by
            intro b hb hc
            exact (hclean b (hBmem b hb)).2 hc
          have hstrip : stripInlineMarkdown (joinSep ['\n'] (l :: D)) =
              joinSep ['\n'] (l :: D) := by
            apply stripInlineMarkdown_eq_self
            intro c hc
            rcases mem_joinSep ['\n'] (l :: D) c hc with hcn | ⟨p, hp, hcp⟩
            · have : c = '\n' := by simpa using hcn
              subst this
              exact ⟨by decide, by decide⟩
            · exact (hclean p (hBmem p hp)).1 c hcp
          injection heq with heq2
          subst heq2
          rw [show (String.mk (stripInlineMarkdown (joinSep ['\n'] (l :: D)))).data =
            stripInlineMarkdown (joinSep ['\n'] (l :: D)) from rfl]
          rw [hstrip, splitOnChar_joinSep '\n' (l :: D) (by simp) hBnl]
          intro d hd
          exact h3 d (by simpa using hd)
        · refine ih (dropBlanks rest2) ?_ ?_ t hmem
          · have e1 : (dropBlanks rest2).length ≤ rest2.length :=
              (List.dropWhile_sublist _).length_le
            have e2 : rest2.length ≤ rest.length := by
              rw [h2]
              simp
            omega
          · intro x hx
            have hx2 : x ∈ rest2 := (List.dropWhile_sublist _).subset hx
            have hx3 : x ∈ rest := h2 ▸ List.mem_append_right _ hx2
            exact hclean x (List.mem_cons_of_mem _ hx3)

/-- C9 counterexample: inline-markdown stripping can synthesize table
syntax.  For the input `"|a|\n|**-**|"` the second line is not a
separator (stripping the separator characters leaves `"****"`), so the
whole input is one Prose segment; but stripping the bold markers turns
its text into `"|a|\n|-|"`, and re-segmenting that rendered plain text
yields a Table segment — the claimed idempotence fails. -/
theorem c9_counterexample :
    segmentText "|a|\n|**-**|" = [Segment.prose "|a|\n|-|"] ∧
    segmentChars (renderedPlainText (segmentText "|a|\n|**-**|")) =
        [Segment.table ["a"] []] ∧
    Segment.isProse (Segment.table ["a"] []) = false := by
  refine ⟨?_, ?_, rfl⟩ <;>
    simp [segmentText, segmentChars, segmentLines, normalizeNewlines, splitOnChar,
      isTableStart, trimChars, startsWithChars, proseRun, dropBlanks, joinSep,
      stripInlineMarkdown, stripBold, stripCode, isBlank, ws, scanBoldInner,
      scanCodeInner, backtick, isTableSeparatorLine, String.mk, splitMarkdownRow,
      tableRows, isSepChar, renderedPlainText, renderSegment]

/-- C9 (amended): for inputs free of `'*'`, backtick, `'|'` and `'\r'`
(no inline markup to strip, no table syntax, no CR line endings),
segmenting produces only Prose segments and re-segmenting the rendered
plain text reproduces the segmentation exactly; in general the claim
fails, because stripping can synthesize separator lines (see the
counterexample) or blank lines, and table rendering is lossy. -/
theorem c9_resegment_idempotent (s : String)
    (h : ∀ c ∈ s.data, c ≠ '*' ∧ c ≠ backtick ∧ c ≠ '|' ∧ c ≠ '\r') :
    (∀ seg ∈ segmentText s, seg.isProse = true) ∧
    segmentChars (renderedPlainText (segmentText s)) = segmentText s := by
  have hnorm : normalizeNewlines s.data = s.data :=
    normalizeNewlines_eq_self s.data (fun c hc => (h c hc).2.2.2)
  have hclean : ∀ l ∈ splitOnChar '\n' s.data, ∀ c ∈ l,
      c ≠ '*' ∧ c ≠ backtick ∧ c ≠ '|' ∧ c ≠ '\n' := by
    intro l hl c hc
    obtain ⟨hmem, hnl⟩ := mem_splitOnChar '\n' s.data l hl c hc
    exact ⟨(h c hmem).1, (h c hmem).2.1, (h c hmem).2.2.1, hnl⟩
  obtain ⟨hP, hH, hC, hE⟩ := segmentLines_reparse (splitOnChar '\n' s.data).length
    (splitOnChar '\n' s.data) (le_refl _) hclean (splitOnChar_ne_nil _ _)
  have hsegText : segmentText s = segmentLines (splitOnChar '\n' s.data) := by
    unfold segmentText segmentChars
    rw [hnorm]
  constructor
  · rw [hsegText]
    exact hP
  · rw [hsegText]
    unfold segmentChars
    have hnocr : normalizeNewlines
        (renderedPlainText (segmentLines (splitOnChar '\n' s.data))) =
        renderedPlainText (segmentLines (splitOnChar '\n' s.data)) := by
      apply normalizeNewlines_eq_self
      intro c hc
      rcases hC c hc with rfl | ⟨l, hl, hcl⟩
      · decide
      · obtain ⟨hmem, _⟩ := mem_splitOnChar '\n' s.data l hl c hcl
        exact (h c hmem).2.2.2
    rw [hnocr]
    exact hE

/-- Witness for C9's amended theorem at a concrete markup-free input. -/
theorem c9_witness :
    segmentChars (renderedPlainText (segmentText "hello\nworld")) =
        segmentText "hello\nworld" :=
  (c9_resegment_idempotent "hello\nworld" (by decide)).2

/-- C5 counterexample: the claim says consecutive blank lines before any
content are skipped and produce no segment.  In the code, a blank line is
accumulated whenever the accumulator is still empty (the guard is
`normalLines.length > 0`), so `"\n\nworld"` produces an empty Prose
segment from its leading blank line, where the claim predicts just
`[Prose "world"]`. -/
theorem c5_counterexample :
    segmentText "\n\nworld" = [Segment.prose "", Segment.prose "world"] ∧
    segmentText "\n\nworld" ≠ [Segment.prose "world"] := by
  have h : segmentText "\n\nworld" = [Segment.prose "", Segment.prose "world"] := by
    simp [segmentText, segmentChars, segmentLines, normalizeNewlines, splitOnChar,
      isTableStart, trimChars, startsWithChars, proseRun, dropBlanks, joinSep,
      stripInlineMarkdown, stripBold, stripCode, isBlank, ws, scanBoldInner,
      scanCodeInner, backtick, isTableSeparatorLine, String.mk, splitMarkdownRow,
      tableRows, isSepChar]
  refine ⟨h, ?_⟩
  rw [h]
  decide

/-- C5 (amended): non-table lines accumulate into a Prose segment until a
table start, or until a blank line arrives once at least one line (blank
or not) has been accumulated; a blank line that arrives while nothing is
accumulated is itself accumulated, so a prose run can begin with a blank
line.  The terminating blank line and the blank lines right after it are
discarded, so (for inputs whose inline stripping is inert, i.e. free of
`'*'` and backtick) every line after the first of a Prose segment's text
is non-blank.  `"hello\n\nworld"` yields exactly the two Prose segments
`"hello"` and `"world"`. -/
theorem c5_prose_runs :
    segmentText "hello\n\nworld" = [Segment.prose "hello", Segment.prose "world"] ∧
    (∀ (s : String), (∀ c ∈ s.data, c ≠ '*' ∧ c ≠ backtick) →
      ∀ t, Segment.prose t ∈ segmentText s →
        ∀ d ∈ (splitOnChar '\n' t.data).tail, isBlank d = false) ∧
    (∀ (acc : List Chars) (l : Chars) (rest : List Chars), isBlank l = true → acc ≠ [] →
      proseRun acc (l :: rest) = (acc.reverse, l :: rest)) ∧
    (∀ (l : Chars) (rest : List Chars), isBlank l = true →
      proseRun [] (l :: rest) = proseRun [l] rest) := by
  refine ⟨?_, ?_, ?_, ?_⟩
  · simp [segmentText, segmentChars, segmentLines, normalizeNewlines, splitOnChar,
      isTableStart, trimChars, startsWithChars, proseRun, dropBlanks, joinSep,
      stripInlineMarkdown, stripBold, stripCode, isBlank, ws, scanBoldInner,
      scanCodeInner, backtick, isTableSeparatorLine, String.mk, splitMarkdownRow,
      tableRows, isSepChar]
  · intro s hs t ht
    refine prose_segment_shape (splitOnChar '\n' (normalizeNewlines s.data)).length
      (splitOnChar '\n' (normalizeNewlines s.data)) (le_refl _) ?_ t ht
    intro l hl
    constructor
    · intro c hc
      have hm := (mem_splitOnChar '\n' _ l hl c hc).1
      exact hs c (mem_normalizeNewlines s.data c hm)
    · intro hc
      exact (mem_splitOnChar '\n' _ l hl '\n' hc).2 rfl
  · intro acc l rest hb hacc
    simp only [proseRun]
    rw [if_neg (by simp [isTableStart_false_of_blank l rest hb])]
    rw [if_pos (by
      rw [Bool.and_eq_true]
      exact ⟨hb, by simpa using hacc⟩)]
  · intro l rest hb
    simp only [proseRun]
    rw [if_neg (by simp [isTableStart_false_of_blank l rest hb])]
    rw [if_neg (by simp)]

/-- Witness for C5's amended theorem at concrete inputs: the tail lines
of the only Prose segment of `"a\nb"` are non-blank, a blank line stops a
run with a non-empty accumulator, and a leading blank line is itself
accumulated. -/
theorem c5_witness :
    (∀ d ∈ (splitOnChar '\n' ("a\nb" : String).data).tail, isBlank d = false) ∧
    proseRun ["x".data] ("".data :: ["y".data]) =
        (["x".data].reverse, "".data :: ["y".data]) ∧
    proseRun [] ("".data :: ["y".data]) = proseRun ["".data] ["y".data] :=
  ⟨c5_prose_runs.2.1 "a\nb" (by decide) "a\nb"
      (by
        simp [segmentText, segmentChars, segmentLines, normalizeNewlines, splitOnChar,
          isTableStart, trimChars, startsWithChars, proseRun, dropBlanks, joinSep,
          stripInlineMarkdown, stripBold, stripCode, isBlank, ws, scanBoldInner,
          scanCodeInner, backtick, isTableSeparatorLine, String.mk, splitMarkdownRow,
          tableRows, isSepChar]),
   c5_prose_runs.2.2.1 ["x".data] "".data ["y".data] (by decide) (by simp),
   c5_prose_runs.2.2.2 "".data ["y".data] (by decide)⟩
